import Mathlib

/-!
# crushscript `js.h`: a shallow embedding and its verified properties

`js.h` is a header of JavaScript-flavoured helpers (`Number`, `Math.floor`,
`Math.random`, `console.log`, `js_constructor_Int32Array`, `process::setargs`),
each a thin wrapper over a C or C++ library primitive.

The library primitives the header calls are modelled from their C and C++
semantics: `atoi`, `::floor`, the conversion of a `double` to `int32_t` and
`printf` in the namespace `libc`, `operator new[]` and array accesses in the
namespace `Heap`; the values of `rand()` and `time(NULL)` are parameters. The
binary64 arithmetic of `double` is in the namespace `binary64`. The functions of
the header itself keep their source names and are translated line by line on
top of them.

Conventions of the embedding:
* a C string (`char*`) is the `List Char` of the bytes it points at; reading
  stops at the first NUL, or at the end of the list (the terminator);
* `int` and `int32_t` values are `Int`s, reduced to 32 bits by `toInt32`
  where the source performs arithmetic or a narrowing conversion;
* a `double` value is the rational number it denotes (every finite `double` is
  one); `::floor` is exact on them, and the conversion of an integer to
  `double` and the division of two of them round to the nearest binary64 value
  (`binary64.rnd`);
* memory is a list of allocated blocks, a block being a list of slots, and a
  slot is `none` until it has been written.
-/

/-! ## Machine integers -/

/-- Smallest value of a 32-bit signed integer. -/
def INT_MIN : Int := -2147483648

/-- Largest value of a 32-bit signed integer. -/
def INT_MAX : Int := 2147483647

/-- Smallest value of a 64-bit `long`. -/
def LONG_MIN : Int := -9223372036854775808

/-- Largest value of a 64-bit `long`. -/
def LONG_MAX : Int := 9223372036854775807

/-- Reduction of an integer to the 32-bit two's complement value with the same
low 32 bits (the conversion to `int`, and 32-bit wrap-around arithmetic). -/
def toInt32 (n : Int) : Int := (n + 2147483648) % 4294967296 - 2147483648

/-- The values a 32-bit signed integer can hold. -/
def isInt32 (n : Int) : Prop := INT_MIN ≤ n ∧ n ≤ INT_MAX

instance (n : Int) : Decidable (isInt32 n) := by unfold isInt32; infer_instance

/-! ## The C library primitives used by the header -/

namespace libc

/-- C-locale `isspace`: space, `\t`, `\n`, `\v`, `\f`, `\r`. -/
def isspace (c : Char) : Bool :=
  c = ' ' || c = '\t' || c = '\n' || c = '\x0b' || c = '\x0c' || c = '\r'

/-- C-locale `isdigit`: the characters `0` to `9`. -/
def isdigit (c : Char) : Bool := 48 ≤ c.toNat && c.toNat ≤ 57

/-- Value of a decimal digit character (`c - '0'`). -/
def digitVal (c : Char) : Nat := c.toNat - 48

/-- The digit loop of `strtol` in base 10: consumes the leading decimal digits
and accumulates `acc * 10 + digit`, stopping at the first other character
(or at the end of the string). -/
def strtol_digits : List Char → Nat → Nat
  | [], acc => acc
  | c :: cs, acc => if isdigit c then strtol_digits cs (acc * 10 + digitVal c) else acc

/-- Call of `strtol(s, NULL, 10)` for a 64-bit `long`: skips leading white space, reads
an optional sign, accumulates the decimal digits that follow, and saturates at
`LONG_MIN` / `LONG_MAX`. With no digit the result is `0`. -/
def strtol (s : List Char) : Int :=
  match s.dropWhile isspace with
  | '-' :: r => max (-(strtol_digits r 0 : Int)) LONG_MIN
  | '+' :: r => min (strtol_digits r 0 : Int) LONG_MAX
  | r => min (strtol_digits r 0 : Int) LONG_MAX

/-- Call of `atoi(s)`, which is `(int) strtol(s, NULL, 10)`: the C standard leaves the
result undefined when the value does not fit an `int`; this is the 64-bit glibc
behaviour, where the saturated `long` is narrowed to its low 32 bits. -/
def atoi (s : List Char) : Int := toInt32 (strtol s)

end libc

/-! ## `Number` -/

/-- Source: `int32_t Number(char* str) { return atoi(str); }` -/
def Number (str : List Char) : Int := libc.atoi str

/-! ### Specification vocabulary for `Number` -/

/-- The next character, if any, is not a decimal digit: the string is empty or
starts with a character other than `0` to `9`. -/
def stopsDigits (t : List Char) : Bool := !(t.head?.map libc.isdigit).getD false

/-- Saturation of a mathematical integer to the range of a 64-bit `long`. -/
def clampLong (v : Int) : Int := max (min v LONG_MAX) LONG_MIN

/-- One or more decimal digits and nothing else. -/
def isDigits (ds : List Char) : Bool := !ds.isEmpty && ds.all libc.isdigit

/-- A numeric string: an optional sign (`+` or `-`) followed by one or more
decimal digits, and nothing else. -/
def isNumeric : List Char → Bool
  | '-' :: ds => isDigits ds
  | '+' :: ds => isDigits ds
  | ds => isDigits ds

/-- The natural number denoted by a digit string in positional notation:
the digit at distance `i` from the right end counts `10 ^ i`. -/
def decimalValue : List Char → Nat
  | [] => 0
  | c :: cs => libc.digitVal c * 10 ^ cs.length + decimalValue cs

/-- The mathematical integer denoted by a numeric string. -/
def numericValue : List Char → Int
  | '-' :: ds => -(decimalValue ds : Int)
  | '+' :: ds => (decimalValue ds : Int)
  | ds => (decimalValue ds : Int)

/-- A string has a numeric prefix when, after its leading white space, it
starts with an optional sign followed by at least one decimal digit. -/
def hasNumericPrefix (s : List Char) : Bool :=
  match s.dropWhile libc.isspace with
  | '-' :: r => (r.head?.map libc.isdigit).getD false
  | '+' :: r => (r.head?.map libc.isdigit).getD false
  | r => (r.head?.map libc.isdigit).getD false

/-! ## Binary64 arithmetic -/

namespace binary64

/-- Rounding of a number to the nearest integer, a tie going to the even one. -/
def roundHalfEven (x : ℚ) : Int :=
  let f := Int.floor x
  let r := x - f
  if r < 1 / 2 then f else if 1 / 2 < r then f + 1 else if f % 2 = 0 then f else f + 1

/-- Rounding of a number to the nearest binary64 value, a tie going to the even
significand (the default rounding of IEEE 754): the magnitude, which lies in a
binade `[2^e, 2^(e+1))`, is scaled by `2^(52 - e)` to a significand in
`[2^52, 2^53)`, the significand is rounded to an integer, and the scale is put
back. The exponent is not bounded: the result is the binary64 one for every
magnitude of the normal range, from `2^(-1022)` up to the overflow threshold,
which holds all the quotients of two `int`s. -/
def rnd (q : ℚ) : ℚ :=
  if q = 0 then 0
  else
    let e := Int.log 2 |q|
    let m := roundHalfEven (|q| * 2 ^ (52 - e))
    if 0 < q then (m : ℚ) * 2 ^ (e - 52) else -((m : ℚ) * 2 ^ (e - 52))

/-- Conversion `(double) n` of an integer. -/
def ofInt (n : Int) : ℚ := rnd (n : ℚ)

/-- Division `x / y` of two `double`s, for a divisor other than zero. -/
def div (x y : ℚ) : ℚ := rnd (x / y)

end binary64

/-! ## `Math` -/

namespace libc

/-- The function `::floor` of `<math.h>`: the largest integral value not greater than `x`,
returned as a floating value. It is exact: no rounding takes place. -/
def floor {α : Type} [LinearOrderedField α] [FloorRing α] (x : α) : α := (Int.floor x : α)

/-- Implicit conversion of a floating value to `int32_t`: the value is
truncated toward zero; the conversion is undefined (`none`) when the truncated
value does not fit 32 bits. -/
def double_to_int32 {α : Type} [LinearOrderedField α] [FloorRing α] (y : α) : Option Int :=
  let n : Int := if 0 ≤ y then Int.floor y else Int.ceil y
  if INT_MIN ≤ n ∧ n ≤ INT_MAX then some n else none

end libc

namespace Math

/-- Source: `int32_t floor(double x) { return ::floor(x); }`, where the result
of `::floor` is converted to the return type. -/
def floor {α : Type} [LinearOrderedField α] [FloorRing α] (x : α) : Option Int :=
  libc.double_to_int32 (libc.floor x)

/-- Source:
`double random() { double r = ((double)rand() / (double)(RAND_MAX)); return r; }`
`RAND_MAX` is the constant of `<stdlib.h>` (implementation-defined, at least
32767, an `int`) and `rand` is the value the call `rand()` returned, an `int`
from 0 to `RAND_MAX`. -/
def random (RAND_MAX : Nat) (rand : Nat) : ℚ :=
  let r : ℚ := binary64.div (binary64.ofInt rand) (binary64.ofInt RAND_MAX)
  r

end Math

/-! ## `console` -/

namespace libc

/-- The character of a decimal digit (`'0' + d`). -/
def digitChar (d : Nat) : Char := Char.ofNat (48 + d)

/-- The digit loop of the `%d` conversion: peels the digits of `n` off from
the least significant one, until the quotient is zero. -/
def utoa_loop : Nat → Nat → List Char → List Char
  | 0, _, acc => acc
  | fuel + 1, n, acc =>
    if n / 10 = 0 then digitChar (n % 10) :: acc
    else utoa_loop fuel (n / 10) (digitChar (n % 10) :: acc)

/-- Decimal digits of a natural number, most significant first. -/
def utoa (n : Nat) : List Char := utoa_loop (n + 1) n []

/-- The `%d` conversion of `printf`: a `-` for a negative value, then the
digits of the magnitude, without padding. -/
def conv_d (x : Int) : List Char :=
  if x < 0 then '-' :: utoa x.natAbs else utoa x.natAbs

/-- The `%s` conversion of `printf`: the characters up to the terminating NUL. -/
def conv_s (s : List Char) : List Char := s.takeWhile (fun c => c != '\x00')

/-- The argument of a `printf` call with one conversion. -/
inductive PrintfArg where
  | int (x : Int)
  | str (s : List Char)

/-- Expansion of a format string with one argument: `%d` and `%s` are replaced
by the conversion of the argument, every other character is copied. -/
def format : List Char → PrintfArg → List Char
  | '%' :: 'd' :: rest, PrintfArg.int x => conv_d x ++ format rest (PrintfArg.int x)
  | '%' :: 's' :: rest, PrintfArg.str s => conv_s s ++ format rest (PrintfArg.str s)
  | c :: rest, a => c :: format rest a
  | [], _ => []

/-- Call of `printf(fmt, arg)`: appends the expanded format to standard output. -/
def printf (stdout : List Char) (fmt : List Char) (arg : PrintfArg) : List Char :=
  stdout ++ format fmt arg

end libc

namespace console

/-- The overload `void log(int32_t x) { printf("%d\n", x); }`, on the contents of
standard output. -/
def log_d (stdout : List Char) (x : Int) : List Char :=
  libc.printf stdout ['%', 'd', '\n'] (libc.PrintfArg.int x)

/-- The overload `void log(char* x) { printf("%s\n", x); }`, on the contents of
standard output. -/
def log_s (stdout : List Char) (x : List Char) : List Char :=
  libc.printf stdout ['%', 's', '\n'] (libc.PrintfArg.str x)

end console

/-! ### Specification vocabulary for `console.log` -/

/-- Digits without padding: one or more decimal digits, the first of which is
`0` only when it is the only one. -/
def isCanonicalDigits (ds : List Char) : Bool :=
  isDigits ds && (ds.head? != some '0' || ds.length == 1)

/-- The string `r` is the decimal representation of the integer `x`: a leading
`-` exactly when `x` is negative, then the digits of the magnitude of `x`
without padding. -/
def isDecimalRepr (r : List Char) (x : Int) : Bool :=
  match r with
  | '-' :: ds => decide (x < 0) && isCanonicalDigits ds && decimalValue ds == x.natAbs
  | ds => decide (0 ≤ x) && isCanonicalDigits ds && decimalValue ds == x.natAbs

/-! ## Memory -/

/-- A memory of arrays: the list of the allocated blocks. A pointer to an array
is the index of its block; a slot is `none` until it is written. -/
abbrev Heap (α : Type) := List (List (Option α))

namespace Heap

/-- Expression `new T[n]`: allocates a block of `n` uninitialised slots after the existing
blocks and returns its index; a negative `n` throws (`none`). -/
def new_array {α : Type} (h : Heap α) (n : Int) : Option (Nat × Heap α) :=
  if n < 0 then none else some (h.length, h ++ [List.replicate n.toNat none])

/-- Read of `p[i]`; `none` is an access outside the allocated blocks. -/
def load {α : Type} (h : Heap α) (p i : Nat) : Option (Option α) :=
  match h[p]? with
  | some b => b[i]?
  | none => none

/-- Write `p[i] = v`; `none` is an access outside the allocated blocks. -/
def store {α : Type} (h : Heap α) (p i : Nat) (v : Option α) : Option (Heap α) :=
  match h[p]? with
  | some b => if i < b.length then some (h.set p (b.set i v)) else none
  | none => none

end Heap

/-! ## `js_constructor_Int32Array` -/

/-- Source: `int32_t* js_constructor_Int32Array(int32_t size) { return new int[size]; }`,
on the memory of `int` arrays. -/
def js_constructor_Int32Array (h : Heap Int) (size : Int) : Option (Nat × Heap Int) :=
  Heap.new_array h size

/-! ## `process` -/

namespace process

/-- The process-wide state `setargs` works on: the memory of `char*` arrays,
the statics `process::argv` (`none` is the null pointer) and `process::argc`,
and the seed of the pseudo-random generator. `α` is the type of the `char*`
values. -/
structure State (α : Type) where
  heap : Heap α
  argv : Option Nat
  argc : Int
  seed : Int

/-- The loop `for (int i = 0; i < argc; i++) process::argv[i+1] = argv[i];`
with `k` iterations left, `src` the caller's vector and `dst` the stored one. -/
def setargs_loop {α : Type} (src dst : Nat) : Nat → Nat → Heap α → Option (Heap α)
  | 0, _, h => some h
  | k + 1, i, h =>
    match Heap.load h src i with
    | none => none
    | some v =>
      match Heap.store h dst (i + 1) v with
      | none => none
      | some h1 => setargs_loop src dst k (i + 1) h1

/-- The body of `setargs`:
`process::argc = argc + 1; process::argv = new char*[argc + 1];`
then the copy loop, then `srand(time(NULL))`, where `now` is the value of
`time(NULL)`. The sum `argc + 1` is a 32-bit `int`. The result is `none` when
the call does not complete (allocation of a negative size, access outside a
block). -/
def setargs {α : Type} (st : State α) (argc : Int) (argv : Nat) (now : Int) :
    Option (State α) :=
  match Heap.new_array st.heap (toInt32 (argc + 1)) with
  | none => none
  | some (p, h) =>
    match setargs_loop argv p argc.toNat 0 h with
    | none => none
    | some h1 => some (State.mk h1 (some p) (toInt32 (argc + 1)) (now % 4294967296))

end process

/-! # Verified properties -/

/-! ## Lemmas on the digit loop of `strtol` -/

theorem isspace_of_isdigit {c : Char} (h : libc.isdigit c = true) : libc.isspace c = false := by
  simp only [libc.isdigit, Bool.and_eq_true, decide_eq_true_eq] at h
  simp only [libc.isspace, Bool.or_eq_false_iff, decide_eq_false_iff_not]
  refine ⟨⟨⟨⟨⟨?_, ?_⟩, ?_⟩, ?_⟩, ?_⟩, ?_⟩ <;> rintro rfl <;> revert h <;> decide

theorem ne_sign_of_isdigit {c : Char} (h : libc.isdigit c = true) : c ≠ '-' ∧ c ≠ '+' := by
  constructor <;> rintro rfl <;> revert h <;> decide

theorem strtol_digits_append (ds t : List Char) (acc : Nat)
    (hds : ds.all libc.isdigit = true) (ht : stopsDigits t = true) :
    libc.strtol_digits (ds ++ t) acc = acc * 10 ^ ds.length + decimalValue ds := by
  induction ds generalizing acc with
  | nil =>
    cases t with
    | nil => simp [libc.strtol_digits, decimalValue]
    | cons c cs =>
      have hc : libc.isdigit c = false := by simpa [stopsDigits] using ht
      simp [libc.strtol_digits, decimalValue, hc]
  | cons d ds ih =>
    simp only [List.all_cons, Bool.and_eq_true] at hds
    have step : libc.strtol_digits (d :: (ds ++ t)) acc
        = libc.strtol_digits (ds ++ t) (acc * 10 + libc.digitVal d) := by
      simp [libc.strtol_digits, hds.1]
    rw [List.cons_append, step, ih _ hds.2]
    simp only [decimalValue, List.length_cons]
    ring

theorem strtol_digits_of_stops (t : List Char) (ht : stopsDigits t = true) :
    libc.strtol_digits t 0 = 0 := by
  simpa [decimalValue] using strtol_digits_append [] t 0 (by simp) ht

theorem dropWhile_isspace_of_head {c : Char} (cs : List Char) (h : libc.isspace c = false) :
    (c :: cs).dropWhile libc.isspace = c :: cs := by
  simp [List.dropWhile, h]

theorem isDigits_cons {ds : List Char} (h : isDigits ds = true) :
    ∃ d r, ds = d :: r ∧ libc.isdigit d = true ∧ ds.all libc.isdigit = true := by
  cases ds with
  | nil => simp [isDigits] at h
  | cons d r =>
    simp only [isDigits, List.isEmpty_cons, Bool.not_false, Bool.true_and] at h
    refine ⟨d, r, rfl, ?_, h⟩
    simp only [List.all_cons, Bool.and_eq_true] at h
    exact h.1

theorem strtol_unsigned (ds t : List Char) (hds : isDigits ds = true)
    (ht : stopsDigits t = true) :
    libc.strtol (ds ++ t) = clampLong (decimalValue ds) := by
  obtain ⟨d, r, rfl, hd, hall⟩ := isDigits_cons hds
  have hne := ne_sign_of_isdigit hd
  have hv := strtol_digits_append (d :: r) t 0 hall ht
  have hdrop := dropWhile_isspace_of_head (r ++ t) (isspace_of_isdigit hd)
  unfold libc.strtol
  rw [List.cons_append, hdrop]
  split
  · rename_i h; exact absurd (List.cons.inj h).1 hne.1
  · rename_i h; exact absurd (List.cons.inj h).1 hne.2
  · rw [← List.cons_append, hv]
    simp only [clampLong, LONG_MAX, LONG_MIN]
    omega

theorem strtol_numeric (p t : List Char) (hp : isNumeric p = true)
    (ht : stopsDigits t = true) :
    libc.strtol (p ++ t) = clampLong (numericValue p) := by
  unfold isNumeric at hp
  split at hp
  · rename_i ds
    have hv := strtol_digits_append ds t 0 (isDigits_cons hp).choose_spec.choose_spec.2.2 ht
    have hdrop := dropWhile_isspace_of_head (ds ++ t) (c := '-') (by decide)
    unfold libc.strtol
    rw [List.cons_append, hdrop]
    simp only [hv, numericValue, clampLong, LONG_MAX, LONG_MIN]
    omega
  · rename_i ds
    have hv := strtol_digits_append ds t 0 (isDigits_cons hp).choose_spec.choose_spec.2.2 ht
    have hdrop := dropWhile_isspace_of_head (ds ++ t) (c := '+') (by decide)
    unfold libc.strtol
    rw [List.cons_append, hdrop]
    simp only [hv, numericValue, clampLong, LONG_MAX, LONG_MIN]
    omega
  · rename_i h1 h2
    rw [strtol_unsigned p t hp ht]
    congr 1
    unfold numericValue
    split
    · exact absurd rfl (h1 _)
    · exact absurd rfl (h2 _)
    · rfl

theorem toInt32_of_isInt32 {v : Int} (h : isInt32 v) : toInt32 v = v := by
  unfold isInt32 INT_MIN INT_MAX at h
  unfold toInt32
  omega

theorem isInt32_toInt32 (v : Int) : isInt32 (toInt32 v) := by
  unfold isInt32 INT_MIN INT_MAX toInt32
  omega

theorem clampLong_of_isInt32 {v : Int} (h : isInt32 v) : clampLong v = v := by
  unfold isInt32 INT_MIN INT_MAX at h
  unfold clampLong LONG_MAX LONG_MIN
  omega

theorem stopsDigits_of_empty_or_nondigit {t : List Char}
    (ht : t = [] ∨ ∃ c r, t = c :: r ∧ libc.isdigit c = false) : stopsDigits t = true := by
  rcases ht with rfl | ⟨c, r, rfl, hc⟩
  · rfl
  · simp [stopsDigits, hc]

/-- The result of `Number` always fits 32 bits, whatever the string. -/
theorem Number_isInt32 (s : List Char) : isInt32 (Number s) :=
  isInt32_toInt32 _

/-- On a numeric string followed by anything that does not continue its digits,
`Number` is the 32-bit narrowing of the saturated value of the numeric string. -/
theorem atoi_numeric_append (p t : List Char) (hp : isNumeric p = true)
    (ht : stopsDigits t = true) :
    Number (p ++ t) = toInt32 (clampLong (numericValue p)) := by
  unfold Number libc.atoi
  rw [strtol_numeric p t hp ht]

/-- A string without numeric prefix is not a numeric string. -/
theorem not_isNumeric_of_not_hasNumericPrefix (s : List Char)
    (h : hasNumericPrefix s = false) : isNumeric s = false := by
  by_contra hn
  have hn : isNumeric s = true := by simpa using hn
  unfold isNumeric at hn
  split at hn
  · rename_i ds
    obtain ⟨d, r, rfl, hd, -⟩ := isDigits_cons hn
    have hdrop := dropWhile_isspace_of_head (d :: r) (c := '-') (by decide)
    simp [hasNumericPrefix, hdrop, hd] at h
  · rename_i ds
    obtain ⟨d, r, rfl, hd, -⟩ := isDigits_cons hn
    have hdrop := dropWhile_isspace_of_head (d :: r) (c := '+') (by decide)
    simp [hasNumericPrefix, hdrop, hd] at h
  · rename_i h1 h2
    obtain ⟨d, r, rfl, hd, -⟩ := isDigits_cons hn
    have hdrop := dropWhile_isspace_of_head r (isspace_of_isdigit hd)
    have hne := ne_sign_of_isdigit hd
    unfold hasNumericPrefix at h
    rw [hdrop] at h
    split at h
    · rename_i e; exact hne.1 (List.cons.inj e).1
    · rename_i e; exact hne.2 (List.cons.inj e).1
    · simp [hd] at h

/-! ## `Number` -/

/-- C1, as stated, fails: `"2147483648"` is a numeric string whose value is
2147483648, and `Number` returns -2147483648 on it, since the result is an
`int32_t`. -/
theorem Number_out_of_range_counterexample :
    isNumeric ['2', '1', '4', '7', '4', '8', '3', '6', '4', '8'] = true ∧
    numericValue ['2', '1', '4', '7', '4', '8', '3', '6', '4', '8'] = 2147483648 ∧
    Number ['2', '1', '4', '7', '4', '8', '3', '6', '4', '8'] = -2147483648 ∧
    Number ['2', '1', '4', '7', '4', '8', '3', '6', '4', '8']
      ≠ numericValue ['2', '1', '4', '7', '4', '8', '3', '6', '4', '8'] := by
  decide

/-- C1, amended: for every numeric string `s` (an optional sign followed by one
or more decimal digits) whose value fits a 32-bit signed integer, `Number s` is
the mathematical integer denoted by `s`. -/
theorem Number_in_range (s : List Char) (hs : isNumeric s = true)
    (hr : isInt32 (numericValue s)) : Number s = numericValue s := by
  have h := atoi_numeric_append s [] hs rfl
  rw [List.append_nil] at h
  rw [h, clampLong_of_isInt32 hr, toInt32_of_isInt32 hr]

/-- Witness of `Number_in_range` at the string `-2147483648`. -/
theorem Number_in_range_witness :
    Number ['-', '2', '1', '4', '7', '4', '8', '3', '6', '4', '8'] = -2147483648 :=
  Number_in_range ['-', '2', '1', '4', '7', '4', '8', '3', '6', '4', '8'] (by decide) (by decide)

/-- C2, as stated, fails: neither `" 42"` (white space before digits) nor
`"12abc"` (digits followed by other characters) is a numeric string, and
`Number` returns 42 and 12 on them, not 0. -/
theorem Number_non_numeric_counterexample :
    isNumeric [' ', '4', '2'] = false ∧ Number [' ', '4', '2'] = 42 ∧
    isNumeric ['1', '2', 'a', 'b', 'c'] = false ∧ Number ['1', '2', 'a', 'b', 'c'] = 12 := by
  decide

/-- C2, amended: for every string `s` without numeric prefix (after its leading
white space, `s` does not start with an optional sign followed by a decimal
digit), `Number s` is 0. -/
theorem Number_eq_zero (s : List Char) (h : hasNumericPrefix s = false) :
    Number s = 0 := by
  have h0 : libc.strtol s = 0 := by
    unfold hasNumericPrefix at h
    unfold libc.strtol
    split at h
    · rename_i r _
      have := strtol_digits_of_stops r (by simp [stopsDigits, h])
      simp [this, LONG_MIN]
    · rename_i r _
      have := strtol_digits_of_stops r (by simp [stopsDigits, h])
      simp [this, LONG_MAX]
    · have := strtol_digits_of_stops (s.dropWhile libc.isspace) (by simp [stopsDigits, h])
      simp [this, LONG_MAX]
  unfold Number libc.atoi
  rw [h0]
  rfl

/-- Witness of `Number_eq_zero` at the strings `abc`, `+x1` and the
empty string. -/
theorem Number_eq_zero_witness :
    Number ['a', 'b', 'c'] = 0 ∧ Number ['+', 'x', '1'] = 0 ∧ Number [] = 0 :=
  ⟨Number_eq_zero ['a', 'b', 'c'] (by decide),
   Number_eq_zero ['+', 'x', '1'] (by decide),
   Number_eq_zero [] (by decide)⟩

/-- C7: for a numeric string `p` (an optional sign followed by one or more
decimal digits) whose value fits 32 bits, and a string `t` that is empty or
begins with a character that is not a decimal digit, `Number (p ++ t)` equals
`Number p`, which is the value of `p`: what follows the signed-digit prefix is
ignored. -/
theorem Number_ignores_tail (p t : List Char) (hp : isNumeric p = true)
    (hr : isInt32 (numericValue p))
    (ht : t = [] ∨ ∃ c r, t = c :: r ∧ libc.isdigit c = false) :
    Number (p ++ t) = Number p ∧ Number (p ++ t) = numericValue p := by
  have h := atoi_numeric_append p t hp (stopsDigits_of_empty_or_nondigit ht)
  have h1 := atoi_numeric_append p [] hp rfl
  rw [List.append_nil] at h1
  refine ⟨by rw [h, h1], ?_⟩
  rw [h, clampLong_of_isInt32 hr, toInt32_of_isInt32 hr]

/-- Witness of `Number_ignores_tail` at `-12` followed by `px`. -/
theorem Number_ignores_tail_witness :
    Number (['-', '1', '2'] ++ ['p', 'x']) = Number ['-', '1', '2'] ∧
    Number (['-', '1', '2'] ++ ['p', 'x']) = numericValue ['-', '1', '2'] :=
  Number_ignores_tail ['-', '1', '2'] ['p', 'x'] (by decide) (by decide)
    (Or.inr ⟨'p', ['x'], rfl, by decide⟩)

/-! ## `Math.floor` -/

/-- C3: for every `x` with `-2^31 ≤ x ≤ 2^31 - 1`, `Math.floor x` is defined and
is an integer `n` with `n ≤ x < n + 1`; `n` is the largest integer not greater
than `x`, it fits 32 bits, and it is the value `::floor(x)` itself: the
conversion to `int32_t` loses nothing. -/
theorem Math_floor_spec {α : Type} [LinearOrderedField α] [FloorRing α] (x : α)
    (hlo : -2 ^ 31 ≤ x) (hhi : x ≤ 2 ^ 31 - 1) :
    ∃ n : Int, Math.floor x = some n ∧ (n : α) ≤ x ∧ x < (n : α) + 1 ∧
      (∀ m : Int, (m : α) ≤ x → m ≤ n) ∧ isInt32 n ∧ (n : α) = libc.floor x := by
  have h1 : INT_MIN ≤ Int.floor x := by
    rw [Int.le_floor]
    norm_num [INT_MIN] at hlo ⊢
    exact hlo
  have h2 : Int.floor x ≤ INT_MAX := by
    have : (Int.floor x : α) ≤ ((2147483647 : Int) : α) := by
      refine le_trans (Int.floor_le x) (le_trans hhi ?_)
      norm_num
    exact_mod_cast this
  refine ⟨Int.floor x, ?_, Int.floor_le x, Int.lt_floor_add_one x,
    fun m hm => Int.le_floor.mpr hm, ⟨h1, h2⟩, rfl⟩
  unfold Math.floor libc.double_to_int32 libc.floor
  simp only [Int.floor_intCast, Int.ceil_intCast, ite_self]
  rw [if_pos ⟨h1, h2⟩]

/-- Witness of `Math_floor_spec` at `x = -5/2`, a rational number. -/
theorem Math_floor_spec_witness :
    ∃ n : Int, Math.floor (-5 / 2 : ℚ) = some n ∧ (n : ℚ) ≤ -5 / 2 ∧ (-5 / 2 : ℚ) < (n : ℚ) + 1 ∧
      (∀ m : Int, (m : ℚ) ≤ -5 / 2 → m ≤ n) ∧ isInt32 n ∧ (n : ℚ) = libc.floor (-5 / 2 : ℚ) :=
  Math_floor_spec (-5 / 2 : ℚ) (by norm_num) (by norm_num)

/-! ## Lemmas on the rounding to binary64 -/

/-! ### Rounding to the nearest integer -/

theorem roundHalfEven_cases (x : ℚ) :
    (binary64.roundHalfEven x = Int.floor x ∧ x - (Int.floor x : ℚ) ≤ 1 / 2) ∨
    (binary64.roundHalfEven x = Int.floor x + 1 ∧ 1 / 2 ≤ x - (Int.floor x : ℚ)) := by
  unfold binary64.roundHalfEven
  simp only
  split_ifs with h1 h2 h3
  · exact Or.inl ⟨rfl, le_of_lt h1⟩
  · exact Or.inr ⟨rfl, le_of_lt h2⟩
  · exact Or.inl ⟨rfl, not_lt.mp h2⟩
  · exact Or.inr ⟨rfl, not_lt.mp h1⟩

theorem roundHalfEven_intCast (n : Int) : binary64.roundHalfEven (n : ℚ) = n := by
  unfold binary64.roundHalfEven
  simp

theorem roundHalfEven_error (x : ℚ) : |(binary64.roundHalfEven x : ℚ) - x| ≤ 1 / 2 := by
  have h0 := Int.floor_le x
  have h1 := Int.lt_floor_add_one x
  rw [abs_le]
  rcases roundHalfEven_cases x with ⟨h, hr⟩ | ⟨h, hr⟩ <;> rw [h] <;> push_cast <;>
    constructor <;> linarith

theorem roundHalfEven_mono {x y : ℚ} (h : x ≤ y) :
    binary64.roundHalfEven x ≤ binary64.roundHalfEven y := by
  have hf : Int.floor x ≤ Int.floor y := Int.floor_mono h
  rcases lt_or_eq_of_le hf with hlt | heq
  · have hx : binary64.roundHalfEven x ≤ Int.floor x + 1 := by
      rcases roundHalfEven_cases x with ⟨e, -⟩ | ⟨e, -⟩ <;> omega
    have hy : Int.floor y ≤ binary64.roundHalfEven y := by
      rcases roundHalfEven_cases y with ⟨e, -⟩ | ⟨e, -⟩ <;> omega
    omega
  · unfold binary64.roundHalfEven
    simp only
    rw [← heq]
    have hxy : x - (Int.floor x : ℚ) ≤ y - (Int.floor x : ℚ) := by linarith
    split_ifs <;> first | omega | (exfalso; linarith)

theorem le_roundHalfEven {n : Int} {x : ℚ} (h : (n : ℚ) ≤ x) : n ≤ binary64.roundHalfEven x := by
  have := roundHalfEven_mono h
  rwa [roundHalfEven_intCast] at this

theorem roundHalfEven_le {n : Int} {x : ℚ} (h : x ≤ (n : ℚ)) : binary64.roundHalfEven x ≤ n := by
  have := roundHalfEven_mono h
  rwa [roundHalfEven_intCast] at this

/-! ### Rounding to the nearest binary64 value -/

theorem rnd_zero : binary64.rnd 0 = 0 := by
  unfold binary64.rnd
  simp

/-- A positive number in the binade `[2^e, 2^(e+1))` is rounded through its
significand scaled by `2^(52 - e)`. -/
theorem rnd_of_binade {q : ℚ} {e : Int} (h1 : (2 : ℚ) ^ e ≤ q) (h2 : q < (2 : ℚ) ^ (e + 1)) :
    binary64.rnd q = (binary64.roundHalfEven (q * 2 ^ (52 - e)) : ℚ) * 2 ^ (e - 52) := by
  have hq : 0 < q := lt_of_lt_of_le (zpow_pos (by norm_num) e) h1
  have hlog : Int.log 2 q = e := by
    apply le_antisymm
    · have := (Int.lt_zpow_iff_log_lt (b := 2) (by norm_num) hq (x := e + 1)).mp
        (by exact_mod_cast h2)
      omega
    · exact (Int.zpow_le_iff_le_log (b := 2) (by norm_num) hq).mp (by exact_mod_cast h1)
  unfold binary64.rnd
  simp only [hq.ne', if_false, hq, if_true, abs_of_pos hq, hlog]

theorem binade_of_pos {q : ℚ} (hq : 0 < q) :
    (2 : ℚ) ^ Int.log 2 q ≤ q ∧ q < (2 : ℚ) ^ (Int.log 2 q + 1) := by
  constructor
  · exact_mod_cast Int.zpow_log_le_self (b := 2) (by norm_num) hq
  · exact_mod_cast Int.lt_zpow_succ_log_self (b := 2) (by norm_num) q

theorem two_zpow_split (a b : Int) : (2 : ℚ) ^ a * 2 ^ b = 2 ^ (a + b) :=
  (zpow_add₀ (by norm_num) a b).symm

/-- The scaled significand of a number of the binade `[2^e, 2^(e+1))` lies in
`[2^52, 2^53)`. -/
theorem scaled_bounds {q : ℚ} {e : Int} (h1 : (2 : ℚ) ^ e ≤ q) (h2 : q < (2 : ℚ) ^ (e + 1)) :
    ((4503599627370496 : Int) : ℚ) ≤ q * 2 ^ (52 - e) ∧
    q * 2 ^ (52 - e) < ((9007199254740992 : Int) : ℚ) := by
  have hp : (0 : ℚ) < 2 ^ (52 - e) := zpow_pos (by norm_num) _
  have e1 : (2 : ℚ) ^ e * 2 ^ (52 - e) = 4503599627370496 := by
    rw [two_zpow_split]; norm_num
  have e2 : (2 : ℚ) ^ (e + 1) * 2 ^ (52 - e) = 9007199254740992 := by
    rw [two_zpow_split]
    have : e + 1 + (52 - e) = 53 := by ring
    rw [this]; norm_num
  constructor
  · push_cast; rw [← e1]; exact mul_le_mul_of_nonneg_right h1 hp.le
  · push_cast; rw [← e2]; exact mul_lt_mul_of_pos_right h2 hp

/-- The rounding of a number of the binade `[2^e, 2^(e+1))` stays within the
closed binade. -/
theorem rnd_binade_bounds {q : ℚ} {e : Int} (h1 : (2 : ℚ) ^ e ≤ q)
    (h2 : q < (2 : ℚ) ^ (e + 1)) :
    (2 : ℚ) ^ e ≤ binary64.rnd q ∧ binary64.rnd q ≤ (2 : ℚ) ^ (e + 1) := by
  obtain ⟨s1, s2⟩ := scaled_bounds h1 h2
  have hp : (0 : ℚ) < 2 ^ (e - 52) := zpow_pos (by norm_num) _
  have m1 : ((4503599627370496 : Int) : ℚ) ≤ (binary64.roundHalfEven (q * 2 ^ (52 - e)) : ℚ) := by
    exact_mod_cast le_roundHalfEven s1
  have m2 : (binary64.roundHalfEven (q * 2 ^ (52 - e)) : ℚ) ≤ ((9007199254740992 : Int) : ℚ) := by
    exact_mod_cast roundHalfEven_le s2.le
  have e1 : (4503599627370496 : ℚ) * 2 ^ (e - 52) = 2 ^ e := by
    have : (4503599627370496 : ℚ) = 2 ^ (52 : Int) := by norm_num
    rw [this, two_zpow_split]; congr 1; ring
  have e2 : (9007199254740992 : ℚ) * 2 ^ (e - 52) = 2 ^ (e + 1) := by
    have : (9007199254740992 : ℚ) = 2 ^ (53 : Int) := by norm_num
    rw [this, two_zpow_split]; congr 1; ring
  rw [rnd_of_binade h1 h2]
  constructor
  · rw [← e1]; push_cast at m1; exact mul_le_mul_of_nonneg_right m1 hp.le
  · rw [← e2]; push_cast at m2; exact mul_le_mul_of_nonneg_right m2 hp.le

theorem rnd_pos {q : ℚ} (hq : 0 < q) : 0 < binary64.rnd q := by
  obtain ⟨h1, h2⟩ := binade_of_pos hq
  exact lt_of_lt_of_le (zpow_pos (by norm_num) _) (rnd_binade_bounds h1 h2).1

/-- Rounding to binary64 is monotone on the positive numbers. -/
theorem rnd_mono_pos {p q : ℚ} (hp : 0 < p) (hpq : p ≤ q) : binary64.rnd p ≤ binary64.rnd q := by
  have hq : 0 < q := lt_of_lt_of_le hp hpq
  obtain ⟨p1, p2⟩ := binade_of_pos hp
  obtain ⟨q1, q2⟩ := binade_of_pos hq
  have hlog : Int.log 2 p ≤ Int.log 2 q := Int.log_mono_right hp hpq
  rcases lt_or_eq_of_le hlog with hlt | heq
  · calc binary64.rnd p ≤ (2 : ℚ) ^ (Int.log 2 p + 1) := (rnd_binade_bounds p1 p2).2
      _ ≤ (2 : ℚ) ^ Int.log 2 q := zpow_le_zpow_right₀ (by norm_num) (by omega)
      _ ≤ binary64.rnd q := (rnd_binade_bounds q1 q2).1
  · rw [← heq] at q1 q2
    rw [rnd_of_binade p1 p2, rnd_of_binade q1 q2]
    have hs : (0 : ℚ) < 2 ^ (52 - Int.log 2 p) := zpow_pos (by norm_num) _
    have hm := roundHalfEven_mono (mul_le_mul_of_nonneg_right hpq hs.le)
    have hm' : (binary64.roundHalfEven (p * 2 ^ (52 - Int.log 2 p)) : ℚ)
        ≤ (binary64.roundHalfEven (q * 2 ^ (52 - Int.log 2 p)) : ℚ) := by exact_mod_cast hm
    exact mul_le_mul_of_nonneg_right hm' (zpow_pos (by norm_num) _).le

/-- Rounding to binary64 is monotone on the non-negative numbers. -/
theorem rnd_mono {p q : ℚ} (hp : 0 ≤ p) (hpq : p ≤ q) : binary64.rnd p ≤ binary64.rnd q := by
  rcases eq_or_lt_of_le hp with h0 | hpos
  · rw [← h0, rnd_zero]
    rcases eq_or_lt_of_le (le_trans hp hpq) with h1 | h1
    · rw [← h1, rnd_zero]
    · exact (rnd_pos h1).le
  · exact rnd_mono_pos hpos hpq

/-- The error of the rounding of a number of the binade `[2^e, 2^(e+1))` is at
most half a unit in the last place, `2^(e - 53)`. -/
theorem rnd_error {q : ℚ} {e : Int} (h1 : (2 : ℚ) ^ e ≤ q) (h2 : q < (2 : ℚ) ^ (e + 1)) :
    |binary64.rnd q - q| ≤ (2 : ℚ) ^ (e - 53) := by
  have hp : (0 : ℚ) < 2 ^ (e - 52) := zpow_pos (by norm_num) _
  have hq : q = q * 2 ^ (52 - e) * 2 ^ (e - 52) := by
    rw [mul_assoc, two_zpow_split]
    have : 52 - e + (e - 52) = 0 := by ring
    rw [this, zpow_zero, mul_one]
  have hhalf : (2 : ℚ) ^ (e - 53) = 1 / 2 * 2 ^ (e - 52) := by
    have : (1 / 2 : ℚ) = 2 ^ (-1 : Int) := by norm_num
    rw [this, two_zpow_split]; congr 1; ring
  rw [rnd_of_binade h1 h2, hhalf]
  nth_rewrite 2 [hq]
  rw [← sub_mul, abs_mul, abs_of_pos hp]
  exact mul_le_mul_of_nonneg_right (roundHalfEven_error _) hp.le

/-- A natural number below `2^53` is a binary64 value: its conversion is exact. -/
theorem rnd_natCast {n : Nat} (hn : n < 9007199254740992) : binary64.rnd (n : ℚ) = n := by
  rcases Nat.eq_zero_or_pos n with h0 | hpos
  · rw [h0]; simp [rnd_zero]
  have hq : (0 : ℚ) < n := by exact_mod_cast hpos
  obtain ⟨h1, h2⟩ := binade_of_pos hq
  have hlog : Int.log 2 (n : ℚ) = (Nat.log 2 n : Int) := Int.log_natCast 2 n
  have hle : Nat.log 2 n ≤ 52 := by
    have := Nat.log_lt_of_lt_pow (b := 2) (x := 53) hpos.ne' (by norm_num; exact hn)
    omega
  rw [rnd_of_binade h1 h2, hlog]
  have hexp : (52 : Int) - (Nat.log 2 n : Int) = ((52 - Nat.log 2 n : Nat) : Int) := by omega
  have hint : (n : ℚ) * 2 ^ ((52 : Int) - (Nat.log 2 n : Int))
      = ((n * 2 ^ (52 - Nat.log 2 n) : Nat) : Int) := by
    rw [hexp, zpow_natCast]; push_cast; ring
  rw [hint, roundHalfEven_intCast, ← hint, mul_assoc, two_zpow_split]
  have : (52 : Int) - (Nat.log 2 n : Int) + ((Nat.log 2 n : Int) - 52) = 0 := by ring
  rw [this, zpow_zero, mul_one]

theorem roundHalfEven_eq_of_near {x : ℚ} {n : Int} (h1 : (n : ℚ) - 1 / 2 < x)
    (h2 : x < (n : ℚ) + 1 / 2) : binary64.roundHalfEven x = n := by
  have he := abs_le.mp (roundHalfEven_error x)
  have l1 : ((binary64.roundHalfEven x : Int) : ℚ) < ((n + 1 : Int) : ℚ) := by
    push_cast; linarith [he.2]
  have l2 : ((n - 1 : Int) : ℚ) < ((binary64.roundHalfEven x : Int) : ℚ) := by
    push_cast; linarith [he.1]
  have l1' : binary64.roundHalfEven x < n + 1 := by exact_mod_cast l1
  have l2' : n - 1 < binary64.roundHalfEven x := by exact_mod_cast l2
  omega

/-- A positive number that is at most `1 - 2^(-53)` is rounded below 1. -/
theorem rnd_lt_one {q : ℚ} (hq : 0 < q) (h : q * 9007199254740992 ≤ 9007199254740991) :
    binary64.rnd q < 1 := by
  obtain ⟨h1, h2⟩ := binade_of_pos hq
  have hq1 : q < 1 := by linarith
  have hlog : Int.log 2 q < 0 :=
    (Int.lt_zpow_iff_log_lt (b := 2) (by norm_num) hq (x := 0)).mp (by simpa using hq1)
  rcases lt_or_eq_of_le (show Int.log 2 q ≤ -1 by omega) with hlt | heq
  · calc binary64.rnd q ≤ (2 : ℚ) ^ (Int.log 2 q + 1) := (rnd_binade_bounds h1 h2).2
      _ ≤ (2 : ℚ) ^ (-1 : Int) := zpow_le_zpow_right₀ (by norm_num) (by omega)
      _ < 1 := by norm_num
  · rw [heq] at h1 h2
    rw [rnd_of_binade h1 h2]
    have hs : q * (2 : ℚ) ^ ((52 : Int) - -1) ≤ ((9007199254740991 : Int) : ℚ) := by
      have : (2 : ℚ) ^ ((52 : Int) - -1) = 9007199254740992 := by norm_num
      rw [this]; push_cast; exact h
    have hm : (binary64.roundHalfEven (q * (2 : ℚ) ^ ((52 : Int) - -1)) : ℚ)
        ≤ ((9007199254740991 : Int) : ℚ) := by exact_mod_cast roundHalfEven_le hs
    have hp : (2 : ℚ) ^ ((-1 : Int) - 52) = 1 / 9007199254740992 := by norm_num
    rw [hp]
    push_cast at hm
    calc (binary64.roundHalfEven (q * (2 : ℚ) ^ ((52 : Int) - -1)) : ℚ) * (1 / 9007199254740992)
        ≤ 9007199254740991 * (1 / 9007199254740992) :=
          mul_le_mul_of_nonneg_right hm (by norm_num)
      _ < 1 := by norm_num

/-- The rounding error on a positive number below 2 is at most `2^(-53)`. -/
theorem rnd_error_unit {q : ℚ} (hq : 0 < q) (h2 : q < 2) :
    |binary64.rnd q - q| ≤ 1 / 9007199254740992 := by
  obtain ⟨b1, b2⟩ := binade_of_pos hq
  have hlog : Int.log 2 q < 1 :=
    (Int.lt_zpow_iff_log_lt (b := 2) (by norm_num) hq (x := 1)).mp (by simpa using h2)
  calc |binary64.rnd q - q| ≤ (2 : ℚ) ^ (Int.log 2 q - 53) := rnd_error b1 b2
    _ ≤ (2 : ℚ) ^ (-53 : Int) := zpow_le_zpow_right₀ (by norm_num) (by omega)
    _ = 1 / 9007199254740992 := by norm_num

/-- Two numbers of `[0, 1]` that are more than `2^(-52)` apart keep their order,
strictly, under rounding. -/
theorem rnd_strict_mono {p q : ℚ} (hp : 0 ≤ p) (hq : q ≤ 1)
    (h : p + 1 / 4503599627370496 < q) : binary64.rnd p < binary64.rnd q := by
  have hq0 : 0 < q := by linarith
  have eq := abs_le.mp (rnd_error_unit hq0 (by linarith))
  rcases eq_or_lt_of_le hp with h0 | hpos
  · rw [← h0, rnd_zero]; exact rnd_pos hq0
  · have ep := abs_le.mp (rnd_error_unit hpos (by linarith))
    linarith [ep.2, eq.1]

/-! ## `Math.random` -/

/-- On `int` values the two conversions to `double` are exact, so `Math.random`
is the binary64 rounding of the quotient. -/
theorem Math_random_eq (RAND_MAX k : Nat) (hR : RAND_MAX < 9007199254740992)
    (hk : k < 9007199254740992) :
    Math.random RAND_MAX k = binary64.rnd ((k : ℚ) / (RAND_MAX : ℚ)) := by
  unfold Math.random binary64.div binary64.ofInt
  simp only [Int.cast_natCast]
  rw [rnd_natCast hR, rnd_natCast hk]

theorem rnd_one : binary64.rnd 1 = 1 := by
  have := rnd_natCast (n := 1) (by norm_num)
  simpa using this

/-- When `rand()` returns `RAND_MAX`, the result is 1. -/
theorem Math_random_self (RAND_MAX : Nat) (h0 : 0 < RAND_MAX)
    (hR : RAND_MAX < 9007199254740992) : Math.random RAND_MAX RAND_MAX = 1 := by
  have hq : (0 : ℚ) < RAND_MAX := by exact_mod_cast h0
  rw [Math_random_eq RAND_MAX RAND_MAX hR hR, div_self hq.ne', rnd_one]

/-- C4 fails on the code: when `rand()` returns `RAND_MAX` (32767 with the
Microsoft C library, 2147483647 with glibc), `Math.random` returns 1, which is
not below 1. -/
theorem Math_random_RAND_MAX :
    Math.random 32767 32767 = 1 ∧ ¬ Math.random 32767 32767 < 1 ∧
    Math.random 2147483647 2147483647 = 1 ∧ ¬ Math.random 2147483647 2147483647 < 1 := by
  have h1 := Math_random_self 32767 (by norm_num) (by norm_num)
  have h2 := Math_random_self 2147483647 (by norm_num) (by norm_num)
  rw [h1, h2]
  norm_num

/-- C10, as stated, fails: with `RAND_MAX = 32767` and `k = 12345` the result is
the `double` 6786942643499713 / 2^54, which is not the number 12345 / 32767
(no `double` is). -/
theorem Math_random_exact_counterexample :
    Math.random 32767 12345 = 6786942643499713 / 18014398509481984 ∧
    Math.random 32767 12345 ≠ (12345 : ℚ) / (32767 : ℚ) := by
  have hv : Math.random 32767 12345 = 6786942643499713 / 18014398509481984 := by
    rw [Math_random_eq 32767 12345 (by norm_num) (by norm_num)]
    have h1 : (2 : ℚ) ^ (-2 : Int) ≤ ((12345 : Nat) : ℚ) / ((32767 : Nat) : ℚ) := by norm_num
    have h2 : ((12345 : Nat) : ℚ) / ((32767 : Nat) : ℚ) < (2 : ℚ) ^ ((-2 : Int) + 1) := by
      norm_num
    rw [rnd_of_binade h1 h2]
    have hm : binary64.roundHalfEven
        (((12345 : Nat) : ℚ) / ((32767 : Nat) : ℚ) * 2 ^ ((52 : Int) - -2))
        = 6786942643499713 := by
      apply roundHalfEven_eq_of_near <;> norm_num
    rw [hm]
    norm_num
  refine ⟨hv, ?_⟩
  rw [hv]
  norm_num

/-- C10, amended: for every `k` with `0 ≤ k ≤ RAND_MAX` returned by `rand()`
(`RAND_MAX` a positive `int`), `Math.random` returns the `double` quotient of
`k` by `RAND_MAX`, which is `k / RAND_MAX` rounded to the nearest `double`
(divisor `RAND_MAX`, not `RAND_MAX + 1`) and is within `2^(-53)` of it; the
result lies in the closed interval `[0, 1]`, is 0 exactly when `k = 0`, is 1
exactly when `k = RAND_MAX`, and is monotone in `k`, strictly. -/
theorem Math_random_closed_interval (RAND_MAX k : Nat) (hR : 0 < RAND_MAX)
    (hmax : (RAND_MAX : Int) ≤ INT_MAX) (hk : k ≤ RAND_MAX) :
    Math.random RAND_MAX k = binary64.rnd ((k : ℚ) / (RAND_MAX : ℚ)) ∧
    |Math.random RAND_MAX k - (k : ℚ) / (RAND_MAX : ℚ)| ≤ 1 / 9007199254740992 ∧
    0 ≤ Math.random RAND_MAX k ∧ Math.random RAND_MAX k ≤ 1 ∧
    (Math.random RAND_MAX k = 0 ↔ k = 0) ∧
    (Math.random RAND_MAX k = 1 ↔ k = RAND_MAX) ∧
    (∀ j : Nat, j ≤ RAND_MAX →
      (Math.random RAND_MAX k ≤ Math.random RAND_MAX j ↔ k ≤ j)) := by
  have hRq : (0 : ℚ) < (RAND_MAX : ℚ) := by exact_mod_cast hR
  have hmax : RAND_MAX ≤ 2147483647 := by
    unfold INT_MAX at hmax
    omega
  have hRle : (RAND_MAX : ℚ) ≤ 2147483647 := by exact_mod_cast hmax
  have hR53 : RAND_MAX < 9007199254740992 := by omega
  -- quotients of counts up to `RAND_MAX`
  have quot : ∀ i : Nat, i ≤ RAND_MAX →
      Math.random RAND_MAX i = binary64.rnd ((i : ℚ) / (RAND_MAX : ℚ)) ∧
      0 ≤ (i : ℚ) / (RAND_MAX : ℚ) ∧ (i : ℚ) / (RAND_MAX : ℚ) ≤ 1 := by
    intro i hi
    have hiq : (i : ℚ) ≤ (RAND_MAX : ℚ) := by exact_mod_cast hi
    exact ⟨Math_random_eq RAND_MAX i hR53 (by omega), by positivity,
      (div_le_one hRq).mpr hiq⟩
  -- two different counts give quotients more than `2^(-52)` apart
  have apart : ∀ i j : Nat, i < j →
      (i : ℚ) / (RAND_MAX : ℚ) + 1 / 4503599627370496 < (j : ℚ) / (RAND_MAX : ℚ) := by
    intro i j hij
    have h1 : (i : ℚ) + 1 ≤ (j : ℚ) := by exact_mod_cast hij
    have h2 : (1 : ℚ) / 4503599627370496 < 1 / (RAND_MAX : ℚ) := by
      rw [div_lt_div_iff₀ (by norm_num) hRq]
      linarith
    calc (i : ℚ) / (RAND_MAX : ℚ) + 1 / 4503599627370496
        < (i : ℚ) / (RAND_MAX : ℚ) + 1 / (RAND_MAX : ℚ) := by linarith
      _ = ((i : ℚ) + 1) / (RAND_MAX : ℚ) := by ring
      _ ≤ (j : ℚ) / (RAND_MAX : ℚ) := (div_le_div_iff_of_pos_right hRq).mpr h1
  have strict : ∀ i j : Nat, i < j → j ≤ RAND_MAX →
      Math.random RAND_MAX i < Math.random RAND_MAX j := by
    intro i j hij hj
    rw [(quot i (by omega)).1, (quot j hj).1]
    exact rnd_strict_mono (quot i (by omega)).2.1 (quot j hj).2.2 (apart i j hij)
  obtain ⟨hkeq, hk0, hk1⟩ := quot k hk
  have hzero : Math.random RAND_MAX 0 = 0 := by
    rw [(quot 0 (Nat.zero_le _)).1]; simp [rnd_zero]
  have hone : Math.random RAND_MAX RAND_MAX = 1 := Math_random_self RAND_MAX hR hR53
  have hmono : ∀ i j : Nat, i ≤ j → j ≤ RAND_MAX →
      Math.random RAND_MAX i ≤ Math.random RAND_MAX j := by
    intro i j hij hj
    rcases Nat.eq_or_lt_of_le hij with h | h
    · rw [h]
    · exact (strict i j h hj).le
  refine ⟨hkeq, ?_, ?_, ?_, ?_, ?_, ?_⟩
  · rcases Nat.eq_zero_or_pos k with h0 | hpos
    · rw [h0, hzero]; simp
    · rw [hkeq]
      have hq : (0 : ℚ) < (k : ℚ) / (RAND_MAX : ℚ) := by
        have : (0 : ℚ) < k := by exact_mod_cast hpos
        positivity
      exact rnd_error_unit hq (by linarith)
  · rw [← hzero]; exact hmono 0 k (Nat.zero_le _) hk
  · rw [← hone]; exact hmono k RAND_MAX hk le_rfl
  · constructor
    · intro h
      by_contra hne
      have := strict 0 k (Nat.pos_of_ne_zero hne) hk
      rw [hzero, h] at this
      exact lt_irrefl _ this
    · rintro rfl; exact hzero
  · constructor
    · intro h
      by_contra hne
      have := strict k RAND_MAX (lt_of_le_of_ne hk hne) le_rfl
      rw [hone, h] at this
      exact lt_irrefl _ this
    · rintro rfl; exact hone
  · intro j hj
    constructor
    · intro h
      by_contra hlt
      exact absurd (strict j k (not_le.mp hlt) hk) (not_lt.mpr h)
    · intro h; exact hmono k j h hj

/-- Witness of `Math_random_closed_interval` at `RAND_MAX = 32767`, `k = 12345`. -/
theorem Math_random_closed_interval_witness :
    Math.random 32767 12345 = binary64.rnd (((12345 : Nat) : ℚ) / ((32767 : Nat) : ℚ)) ∧
    |Math.random 32767 12345 - ((12345 : Nat) : ℚ) / ((32767 : Nat) : ℚ)|
      ≤ 1 / 9007199254740992 ∧
    0 ≤ Math.random 32767 12345 ∧ Math.random 32767 12345 ≤ 1 ∧
    (Math.random 32767 12345 = 0 ↔ 12345 = 0) ∧
    (Math.random 32767 12345 = 1 ↔ 12345 = 32767) ∧
    (∀ j : Nat, j ≤ 32767 →
      (Math.random 32767 12345 ≤ Math.random 32767 j ↔ 12345 ≤ j)) :=
  Math_random_closed_interval 32767 12345 (by decide) (by decide) (by decide)

/-! ## Lemmas on the `%d` and `%s` conversions of `printf` -/

theorem digitChar_spec (d : Nat) (hd : d < 10) :
    libc.isdigit (libc.digitChar d) = true ∧ libc.digitVal (libc.digitChar d) = d ∧
    (libc.digitChar d = '0' ↔ d = 0) := by
  interval_cases d <;> decide

theorem decimalValue_append (a b : List Char) :
    decimalValue (a ++ b) = decimalValue a * 10 ^ b.length + decimalValue b := by
  induction a with
  | nil => simp [decimalValue]
  | cons c cs ih =>
    have step : decimalValue (c :: (cs ++ b))
        = libc.digitVal c * 10 ^ (cs ++ b).length + decimalValue (cs ++ b) := rfl
    have step1 : decimalValue (c :: cs) = libc.digitVal c * 10 ^ cs.length + decimalValue cs := rfl
    rw [List.cons_append, step, step1, ih, List.length_append]
    ring

/-- The digit loop, given enough fuel, puts in front of the accumulator the
digits of `n`: digits only, at least one, of value `n`, and starting with `0`
only when `n` is 0 (a single digit then). -/
theorem utoa_loop_spec (fuel n : Nat) (acc : List Char) (h : n < fuel) :
    ∃ ds, libc.utoa_loop fuel n acc = ds ++ acc ∧ isDigits ds = true ∧
      decimalValue ds = n ∧ (ds.head? ≠ some '0' ∨ (n = 0 ∧ ds.length = 1)) := by
  induction fuel generalizing n acc with
  | zero => omega
  | succ fuel ih =>
    have hd := digitChar_spec (n % 10) (Nat.mod_lt _ (by decide))
    unfold libc.utoa_loop
    by_cases hq : n / 10 = 0
    · rw [if_pos hq]
      have hn : n % 10 = n := by omega
      refine ⟨[libc.digitChar (n % 10)], rfl, ?_, ?_, ?_⟩
      · simp [isDigits, hd.1]
      · simp only [decimalValue, List.length_nil, pow_zero, mul_one, add_zero]
        rw [hd.2.1, hn]
      · by_cases h0 : n = 0
        · right; exact ⟨h0, rfl⟩
        · left
          simp only [List.head?_cons, ne_eq, Option.some.injEq, hd.2.2]
          omega
    · rw [if_neg hq]
      obtain ⟨ds, hds, hdig, hval, hhead⟩ :=
        ih (n / 10) (libc.digitChar (n % 10) :: acc) (by omega)
      refine ⟨ds ++ [libc.digitChar (n % 10)], ?_, ?_, ?_, ?_⟩
      · rw [hds]; simp
      · simp only [isDigits, Bool.and_eq_true, Bool.not_eq_true', List.isEmpty_eq_false,
          List.all_append, List.all_cons, List.all_nil, Bool.and_true] at hdig ⊢
        exact ⟨by simp, hdig.2, hd.1⟩
      · rw [decimalValue_append, hval]
        simp only [decimalValue, List.length_cons, List.length_nil, hd.2.1]
        omega
      · left
        rcases hhead with hh | ⟨h0, -⟩
        · cases ds with
          | nil => simp [isDigits] at hdig
          | cons c cs => simpa using hh
        · exact absurd h0 hq

theorem utoa_spec (n : Nat) :
    isCanonicalDigits (libc.utoa n) = true ∧ decimalValue (libc.utoa n) = n := by
  obtain ⟨ds, hds, hdig, hval, hhead⟩ := utoa_loop_spec (n + 1) n [] (Nat.lt_succ_self n)
  rw [List.append_nil] at hds
  unfold libc.utoa
  rw [hds]
  refine ⟨?_, hval⟩
  simp only [isCanonicalDigits, hdig, Bool.true_and, Bool.or_eq_true, bne_iff_ne, ne_eq,
    beq_iff_eq]
  rcases hhead with hh | ⟨-, hl⟩
  · exact Or.inl hh
  · exact Or.inr hl

theorem utoa_head_ne_minus (n : Nat) : ∀ c cs, libc.utoa n = c :: cs → c ≠ '-' := by
  intro c cs h
  have hc := (utoa_spec n).1
  rw [h] at hc
  simp only [isCanonicalDigits, isDigits, List.all_cons, Bool.and_eq_true] at hc
  rintro rfl
  exact absurd hc.1.2.1 (by decide)

theorem conv_d_spec (x : Int) : isDecimalRepr (libc.conv_d x) x = true := by
  obtain ⟨hcan, hval⟩ := utoa_spec x.natAbs
  unfold libc.conv_d
  by_cases hx : x < 0
  · rw [if_pos hx]
    simp [isDecimalRepr, hx, hcan, hval]
  · rw [if_neg hx]
    unfold isDecimalRepr
    split
    · rename_i ds e
      exact absurd rfl (utoa_head_ne_minus _ _ _ e)
    · simp [hcan, hval, not_lt.mp hx]

theorem conv_s_of_no_NUL (t : List Char) (ht : '\x00' ∉ t) : libc.conv_s t = t := by
  unfold libc.conv_s
  rw [List.takeWhile_eq_self_iff]
  intro c hc
  simp only [bne_iff_ne, ne_eq]
  rintro rfl
  exact ht hc

/-! ## The decimal representation is unique -/

theorem digitChar_digitVal {c : Char} (h : libc.isdigit c = true) :
    libc.digitChar (libc.digitVal c) = c := by
  simp only [libc.isdigit, Bool.and_eq_true, decide_eq_true_eq] at h
  unfold libc.digitChar libc.digitVal
  rw [Nat.add_sub_cancel' h.1, Char.ofNat_toNat]

theorem digitVal_lt {c : Char} (h : libc.isdigit c = true) : libc.digitVal c < 10 := by
  simp only [libc.isdigit, Bool.and_eq_true, decide_eq_true_eq] at h
  unfold libc.digitVal
  omega

theorem decimalValue_lt (ds : List Char) (h : ds.all libc.isdigit = true) :
    decimalValue ds < 10 ^ ds.length := by
  induction ds with
  | nil => simp [decimalValue]
  | cons c cs ih =>
    simp only [List.all_cons, Bool.and_eq_true] at h
    have hc := digitVal_lt h.1
    have hcs := ih h.2
    have step : decimalValue (c :: cs) = libc.digitVal c * 10 ^ cs.length + decimalValue cs := rfl
    rw [step, List.length_cons, pow_succ]
    nlinarith

/-- Digit strings of the same length and the same value are equal. -/
theorem digits_eq_of_length_eq (ds es : List Char) (hds : ds.all libc.isdigit = true)
    (hes : es.all libc.isdigit = true) (hlen : ds.length = es.length)
    (hval : decimalValue ds = decimalValue es) : ds = es := by
  induction ds generalizing es with
  | nil =>
    cases es with
    | nil => rfl
    | cons _ _ => simp at hlen
  | cons c cs ih =>
    cases es with
    | nil => simp at hlen
    | cons e es1 =>
      simp only [List.all_cons, Bool.and_eq_true] at hds hes
      simp only [List.length_cons, add_left_inj] at hlen
      have s1 : decimalValue (c :: cs) = libc.digitVal c * 10 ^ cs.length + decimalValue cs := rfl
      have s2 : decimalValue (e :: es1) = libc.digitVal e * 10 ^ es1.length + decimalValue es1 :=
        rfl
      rw [s1, s2, ← hlen] at hval
      have hpos : 0 < 10 ^ cs.length := Nat.pow_pos (by decide)
      have b1 := decimalValue_lt cs hds.2
      have b2 := decimalValue_lt es1 hes.2
      rw [← hlen] at b2
      have hdig : libc.digitVal c = libc.digitVal e := by
        have q1 : (libc.digitVal c * 10 ^ cs.length + decimalValue cs) / 10 ^ cs.length
            = libc.digitVal c := by
          rw [Nat.add_comm, Nat.add_mul_div_right _ _ hpos, Nat.div_eq_of_lt b1, Nat.zero_add]
        have q2 : (libc.digitVal e * 10 ^ cs.length + decimalValue es1) / 10 ^ cs.length
            = libc.digitVal e := by
          rw [Nat.add_comm, Nat.add_mul_div_right _ _ hpos, Nat.div_eq_of_lt b2, Nat.zero_add]
        rw [← q1, ← q2, hval]
      have hce : c = e := by
        rw [← digitChar_digitVal hds.1, ← digitChar_digitVal hes.1, hdig]
      rw [hdig] at hval
      rw [hce, ih es1 hds.2 hes.2 hlen (Nat.add_left_cancel hval)]

/-- A digit string without padding has as many digits as its value needs: it
is `0` when the value is 0, and its value is at least `10 ^ (length - 1)`
otherwise. -/
theorem canonical_bounds (ds : List Char) (h : isCanonicalDigits ds = true) :
    ds.all libc.isdigit = true ∧ 0 < ds.length ∧
    (decimalValue ds = 0 → ds.length = 1) ∧
    (0 < decimalValue ds → 10 ^ (ds.length - 1) ≤ decimalValue ds) := by
  simp only [isCanonicalDigits, Bool.and_eq_true, Bool.or_eq_true, bne_iff_ne, ne_eq,
    beq_iff_eq] at h
  obtain ⟨c, cs, rfl, hc, hall⟩ := isDigits_cons h.1
  have step : decimalValue (c :: cs) = libc.digitVal c * 10 ^ cs.length + decimalValue cs := rfl
  have hpos : 0 < 10 ^ cs.length := Nat.pow_pos (by decide)
  have hc0 : c ≠ '0' → 0 < libc.digitVal c := by
    intro hne
    by_contra h0
    have h0 : libc.digitVal c = 0 := by omega
    have := digitChar_digitVal hc
    rw [h0] at this
    exact hne this.symm
  refine ⟨hall, by simp, ?_, ?_⟩
  · intro hv
    rcases h.2 with hh | hl
    · have := hc0 (by simpa using hh)
      rw [step] at hv
      have : 0 < libc.digitVal c * 10 ^ cs.length := Nat.mul_pos this hpos
      omega
    · exact hl
  · intro _
    rcases h.2 with hh | hl
    · have h1 := hc0 (by simpa using hh)
      rw [step]
      simp only [List.length_cons, Nat.add_sub_cancel]
      calc 10 ^ cs.length = 1 * 10 ^ cs.length := (Nat.one_mul _).symm
        _ ≤ libc.digitVal c * 10 ^ cs.length := Nat.mul_le_mul_right _ h1
        _ ≤ libc.digitVal c * 10 ^ cs.length + decimalValue cs := Nat.le_add_right _ _
    · rw [hl]; simpa using ‹0 < decimalValue (c :: cs)›

/-- Two digit strings without padding that have the same value are equal. -/
theorem canonical_digits_unique (ds es : List Char) (hds : isCanonicalDigits ds = true)
    (hes : isCanonicalDigits es = true) (hval : decimalValue ds = decimalValue es) : ds = es := by
  obtain ⟨ad, pd, zd, bd⟩ := canonical_bounds ds hds
  obtain ⟨ae, pe, ze, be⟩ := canonical_bounds es hes
  have ud := decimalValue_lt ds ad
  have ue := decimalValue_lt es ae
  refine digits_eq_of_length_eq ds es ad ae ?_ hval
  by_cases h0 : decimalValue ds = 0
  · rw [zd h0, ze (hval ▸ h0)]
  · have hp : 0 < decimalValue ds := Nat.pos_of_ne_zero h0
    have l1 : 10 ^ (ds.length - 1) < 10 ^ es.length := lt_of_le_of_lt (bd hp) (hval ▸ ue)
    have l2 : 10 ^ (es.length - 1) < 10 ^ ds.length :=
      lt_of_le_of_lt (be (hval ▸ hp)) (hval ▸ ud)
    rw [Nat.pow_lt_pow_iff_right (by decide)] at l1 l2
    omega

/-- An integer has one decimal representation only. -/
theorem isDecimalRepr_unique (r s : List Char) (x : Int) (hr : isDecimalRepr r x = true)
    (hs : isDecimalRepr s x = true) : r = s := by
  unfold isDecimalRepr at hr hs
  split at hr <;> split at hs <;>
    simp only [Bool.and_eq_true, decide_eq_true_eq, beq_iff_eq] at hr hs
  · rw [canonical_digits_unique _ _ hr.1.2 hs.1.2 (hr.2.trans hs.2.symm)]
  · omega
  · omega
  · exact canonical_digits_unique _ _ hr.1.2 hs.1.2 (hr.2.trans hs.2.symm)

/-- The decimal representation of `x` is a numeric string that denotes `x`. -/
theorem isDecimalRepr_numeric (r : List Char) (x : Int) (hr : isDecimalRepr r x = true) :
    isNumeric r = true ∧ numericValue r = x := by
  unfold isDecimalRepr at hr
  split at hr <;> simp only [Bool.and_eq_true, decide_eq_true_eq, beq_iff_eq] at hr
  · rename_i ds
    have hd : isDigits ds = true := by
      have := hr.1.2
      simp only [isCanonicalDigits, Bool.and_eq_true] at this
      exact this.1
    refine ⟨hd, ?_⟩
    show -(decimalValue ds : Int) = x
    rw [hr.2]
    omega
  · rename_i hneg
    have hd : isDigits r = true := by
      have := hr.1.2
      simp only [isCanonicalDigits, Bool.and_eq_true] at this
      exact this.1
    obtain ⟨c, cs, rfl, hc, -⟩ := isDigits_cons hd
    have hne := ne_sign_of_isdigit hc
    constructor
    · unfold isNumeric
      split
      · rename_i e; exact absurd (List.cons.inj e).1 hne.1
      · rename_i e; exact absurd (List.cons.inj e).1 hne.2
      · exact hd
    · unfold numericValue
      split
      · rename_i e; exact absurd (List.cons.inj e).1 hne.1
      · rename_i e; exact absurd (List.cons.inj e).1 hne.2
      · rw [hr.2]; omega

/-- Reading back what `%d` prints: `Number` returns `x` on the decimal
representation of a 32-bit integer `x`. -/
theorem Number_conv_d (x : Int) (hx : isInt32 x) : Number (libc.conv_d x) = x := by
  obtain ⟨hn, hv⟩ := isDecimalRepr_numeric _ x (conv_d_spec x)
  have h := atoi_numeric_append (libc.conv_d x) [] hn rfl
  rw [List.append_nil] at h
  rw [h, hv, clampLong_of_isInt32 hx, toInt32_of_isInt32 hx]

/-! ## The two overloads of `console.log` -/

/-- C6: `console.log(x)` on an integer (every 32-bit signed one included) appends to standard output exactly the
decimal representation of `x` (a leading `-` when `x` is negative, digits
without padding; `x` has no other one) followed by one newline; `console.log(t)` on a NUL-terminated
text `t` appends exactly `t` followed by one newline; `log(42)` writes `42\n`
and `log("hi")` writes `hi\n`. What was already written stays in front,
unchanged. -/
theorem console_log_spec (stdout : List Char) (x : Int) (t : List Char)
    (ht : '\x00' ∉ t) :
    (∃ r, console.log_d stdout x = stdout ++ r ++ ['\n'] ∧ isDecimalRepr r x = true ∧
      ∀ s, isDecimalRepr s x = true → s = r) ∧
    console.log_s stdout t = stdout ++ t ++ ['\n'] ∧
    console.log_d [] 42 = ['4', '2', '\n'] ∧
    console.log_s [] ['h', 'i'] = ['h', 'i', '\n'] := by
  refine ⟨⟨libc.conv_d x, ?_, conv_d_spec x,
    fun s hs => isDecimalRepr_unique s _ x hs (conv_d_spec x)⟩, ?_, by decide, by decide⟩
  · simp [console.log_d, libc.printf, libc.format]
  · simp [console.log_s, libc.printf, libc.format, conv_s_of_no_NUL t ht]

/-- Witness of `console_log_spec` at `x = -2147483648` and `t = "ok"`, after
`>` was written. -/
theorem console_log_spec_witness :
    (∃ r, console.log_d ['>'] (-2147483648) = ['>'] ++ r ++ ['\n'] ∧
      isDecimalRepr r (-2147483648) = true ∧
      ∀ s, isDecimalRepr s (-2147483648) = true → s = r) ∧
    console.log_s ['>'] ['o', 'k'] = ['>'] ++ ['o', 'k'] ++ ['\n'] ∧
    console.log_d [] 42 = ['4', '2', '\n'] ∧
    console.log_s [] ['h', 'i'] = ['h', 'i', '\n'] :=
  console_log_spec ['>'] (-2147483648) ['o', 'k'] (by decide)

/-! ## Memory lemmas -/

theorem Heap.load_append_left {α : Type} (H : Heap α) (b : List (Option α)) (p i : Nat)
    (hp : p < H.length) : Heap.load (H ++ [b]) p i = Heap.load H p i := by
  unfold Heap.load
  rw [List.getElem?_append_left hp]

theorem Heap.load_last {α : Type} (H : Heap α) (b : List (Option α)) (i : Nat) :
    Heap.load (H ++ [b]) H.length i = b[i]? := by
  unfold Heap.load
  simp

theorem Heap.store_last {α : Type} (H : Heap α) (b : List (Option α)) (i : Nat)
    (v : Option α) (hi : i < b.length) :
    Heap.store (H ++ [b]) H.length i v = some (H ++ [b.set i v]) := by
  unfold Heap.store
  simp [hi]

/-- The copy loop of `setargs`, started at index `i` with `k` iterations left on
a freshly allocated last block `pre ++ post`: it completes, and replaces the `k`
slots after `pre` by the slots `i`, ..., `i + k - 1` of the source block. -/
theorem setargs_loop_spec {α : Type} (H : Heap α) (src : Nat) (sb : List (Option α))
    (hsrc : H[src]? = some sb) (k : Nat) :
    ∀ (i : Nat) (pre post : List (Option α)), pre.length = i + 1 → post.length = k →
      i + k ≤ sb.length →
      process.setargs_loop src H.length k i (H ++ [pre ++ post])
        = some (H ++ [pre ++ (sb.drop i).take k]) := by
  have hlt : src < H.length := by
    by_contra hge
    rw [List.getElem?_eq_none (not_lt.mp hge)] at hsrc
    exact absurd hsrc (by simp)
  induction k with
  | zero =>
    intro i pre post _ hpost _
    have : post = [] := List.length_eq_zero.mp hpost
    subst this
    simp [process.setargs_loop]
  | succ k ih =>
    intro i pre post hpre hpost hik
    cases post with
    | nil => simp at hpost
    | cons v0 post1 =>
      have hi : i < sb.length := by omega
      have hload : Heap.load (H ++ [pre ++ v0 :: post1]) src i = some sb[i] := by
        rw [Heap.load_append_left H _ src i hlt]
        unfold Heap.load
        rw [hsrc]
        exact List.getElem?_eq_getElem hi
      have hstore : Heap.store (H ++ [pre ++ v0 :: post1]) H.length (i + 1) sb[i]
          = some (H ++ [(pre ++ [sb[i]]) ++ post1]) := by
        rw [Heap.store_last H _ (i + 1) _ (by simp [hpre])]
        congr 3
        rw [← hpre, List.set_append_right _ _ (le_refl _)]
        simp
      have hdrop : sb.drop i = sb[i] :: sb.drop (i + 1) := List.drop_eq_getElem_cons hi
      unfold process.setargs_loop
      simp only [hload, hstore]
      rw [ih (i + 1) (pre ++ [sb[i]]) post1 (by simp [hpre]) (by simpa using hpost) (by omega)]
      rw [hdrop, List.take_succ_cons, List.append_assoc, List.singleton_append]

/-! ## `process::setargs` -/

/-- Closed form of `setargs` on `n` arguments, `n + 1` fitting an `int`: the
call completes; it appends one block to the memory, made of an unwritten slot
followed by the first `n` slots of the caller's vector; `process::argv` points
at that block, `process::argc` is `n + 1`, and the generator is seeded with the
time. -/
theorem setargs_eq {α : Type} (st : process.State α) (n src : Nat) (now : Int)
    (sb : List (Option α)) (hsrc : st.heap[src]? = some sb) (hn : n ≤ sb.length)
    (hr : (n : Int) + 1 ≤ INT_MAX) :
    process.setargs st n src now
      = some (process.State.mk (st.heap ++ [none :: sb.take n]) (some st.heap.length)
          ((n : Int) + 1) (now % 4294967296)) := by
  have h32 : toInt32 ((n : Int) + 1) = (n : Int) + 1 := by
    apply toInt32_of_isInt32
    unfold isInt32 INT_MIN
    constructor
    · omega
    · exact hr
  have hloop := setargs_loop_spec st.heap src sb hsrc n 0 [none] (List.replicate n none)
    rfl (by simp) (by omega)
  have hrep : List.replicate (n + 1) (none : Option α) = [none] ++ List.replicate n none := by
    rw [List.replicate_succ]; rfl
  have hnew : Heap.new_array st.heap ((n : Int) + 1)
      = some (st.heap.length, st.heap ++ [[none] ++ List.replicate n none]) := by
    unfold Heap.new_array
    rw [if_neg (by omega)]
    have : ((n : Int) + 1).toNat = n + 1 := by omega
    rw [this, hrep]
  simp only [List.singleton_append, List.drop_zero] at hloop hnew
  rw [process.setargs, h32, hnew]
  simp only [Int.toNat_ofNat, hloop]

/-- When `argc` is `INT_MAX`, the 32-bit sum `argc + 1` is negative and
`new char*[argc + 1]` throws: the call does not complete. -/
theorem setargs_INT_MAX {α : Type} (st : process.State α) (src : Nat) (now : Int) :
    process.setargs st 2147483647 src now = none := by
  rfl

/-- C5, as stated, fails: with `argc = 2147483647` and a vector of 2147483647
arguments, `argc + 1` does not fit the `int` that `process::argc` is, the call
does not complete, and no stored count equal to `argc + 1` results. -/
theorem setargs_count_counterexample :
    (List.replicate 2147483647 (some 7)).length = 2147483647 ∧
    ¬ ∃ st1 : process.State Nat,
      process.setargs
          (process.State.mk [List.replicate 2147483647 (some 7)] none 0 1) 2147483647 0 0
        = some st1 ∧ st1.argc = 2147483647 + 1 := by
  refine ⟨List.length_replicate _ _, ?_⟩
  rintro ⟨st1, h, -⟩
  rw [setargs_INT_MAX] at h
  exact Option.noConfusion h

/-- C5, amended: for every argument count `n ≥ 0` with `n + 1 ≤ INT_MAX` and
every argument vector `args` of length `n` (the caller's block may hold more
slots after them), `setargs` completes; the stored `process::argc` is `n + 1`,
the stored array has `n + 1` slots, and for every `i < n` its slot `i + 1` holds
`args[i]`; `setargs(2, ["a","b"])` stores count 3, slot 1 = `a`, slot 2 = `b`. -/
theorem setargs_count_and_slots {α : Type} (st : process.State α) (args : List α)
    (rest : List (Option α)) (src : Nat) (now : Int)
    (hsrc : st.heap[src]? = some (args.map some ++ rest))
    (hr : (args.length : Int) + 1 ≤ INT_MAX) :
    (∃ st1 dst blk, process.setargs st args.length src now = some st1 ∧
      st1.argc = (args.length : Int) + 1 ∧ st1.argv = some dst ∧
      st1.heap[dst]? = some blk ∧ blk.length = args.length + 1 ∧
      ∀ i, i < args.length → blk[i + 1]? = args[i]?.map some) ∧
    (∃ st1 dst, process.setargs (process.State.mk [[some "a", some "b"]] none 0 1) 2 0 now
        = some st1 ∧ st1.argc = 3 ∧ st1.argv = some dst ∧
      Heap.load st1.heap dst 1 = some (some "a") ∧
      Heap.load st1.heap dst 2 = some (some "b")) := by
  constructor
  · have h := setargs_eq st args.length src now _ hsrc (by simp) hr
    refine ⟨_, st.heap.length, none :: args.map some, h, rfl, rfl, ?_, by simp, ?_⟩
    · simp
    · intro i hi
      simp [List.getElem?_map]
  · have h := setargs_eq (process.State.mk [[some "a", some "b"]] none 0 1) 2 0 now
      [some "a", some "b"] rfl (by decide) (by decide)
    exact ⟨_, 1, h, rfl, rfl, rfl, rfl⟩

/-- Witness of `setargs_count_and_slots` on three arguments, in a memory where
the caller's vector ends with a null slot. -/
theorem setargs_count_and_slots_witness :
    (∃ st1 dst blk,
      process.setargs (process.State.mk [[some 10, some 20, some 30, none]] none 0 1)
        [10, 20, 30].length 0 99 = some st1 ∧
      st1.argc = ([10, 20, 30].length : Int) + 1 ∧ st1.argv = some dst ∧
      st1.heap[dst]? = some blk ∧ blk.length = [10, 20, 30].length + 1 ∧
      ∀ i, i < [10, 20, 30].length → blk[i + 1]? = [10, 20, 30][i]?.map some) ∧
    (∃ st1 dst, process.setargs (process.State.mk [[some "a", some "b"]] none 0 1) 2 0 99
        = some st1 ∧ st1.argc = 3 ∧ st1.argv = some dst ∧
      Heap.load st1.heap dst 1 = some (some "a") ∧
      Heap.load st1.heap dst 2 = some (some "b")) :=
  setargs_count_and_slots (process.State.mk [[some 10, some 20, some 30, none]] none 0 1)
    [10, 20, 30] [none] 0 99 rfl (by decide)

/-- C8: for every argument count `n ≥ 0` (an `int`, so `n ≤ INT_MAX`) and every
argument vector `args` of `n` pointers, either `n = INT_MAX` and the call stops
in `new` without allocating or writing any array, or `setargs` completes and:
the stored array is a newly allocated block; its slot 0 stays unset (`none`);
the slots it wrote are exactly the slots 1 to `n`, which hold the pointer values
of `args` themselves; every block that existed before, the caller's vector
included, is unchanged. -/
theorem setargs_frame {α : Type} (st : process.State α) (args : List α)
    (rest : List (Option α)) (src : Nat) (now : Int)
    (hsrc : st.heap[src]? = some (args.map some ++ rest))
    (hty : (args.length : Int) ≤ INT_MAX) :
    ((args.length : Int) = INT_MAX ∧ process.setargs st args.length src now = none) ∨
    (∃ st1, process.setargs st args.length src now = some st1 ∧
      st.heap[st.heap.length]? = none ∧ st1.argv = some st.heap.length ∧
      st1.heap = st.heap ++ [none :: args.map some] ∧
      Heap.load st1.heap st.heap.length 0 = some none ∧
      (∀ j, (∃ a, Heap.load st1.heap st.heap.length j = some (some a))
        ↔ (1 ≤ j ∧ j ≤ args.length)) ∧
      (∀ j, j < args.length → Heap.load st1.heap st.heap.length (j + 1) = args[j]?.map some) ∧
      (∀ q, q < st.heap.length → st1.heap[q]? = st.heap[q]?) ∧
      st1.heap[src]? = some (args.map some ++ rest)) := by
  have hlt : src < st.heap.length := by
    by_contra hge
    rw [List.getElem?_eq_none (not_lt.mp hge)] at hsrc
    exact absurd hsrc (by simp)
  by_cases hmax : (args.length : Int) = INT_MAX
  · left
    refine ⟨hmax, ?_⟩
    unfold INT_MAX at hmax
    rw [hmax]
    exact setargs_INT_MAX st src now
  · right
    have hr : (args.length : Int) + 1 ≤ INT_MAX := by omega
    have h := setargs_eq st args.length src now _ hsrc (by simp) hr
    rw [List.take_left' (by simp)] at h
    refine ⟨_, h, by simp, rfl, rfl, ?_, ?_, ?_, ?_, ?_⟩
    · show Heap.load (st.heap ++ [none :: args.map some]) st.heap.length 0 = some none
      rw [Heap.load_last]; simp
    · intro j
      show (∃ a, Heap.load (st.heap ++ [none :: args.map some]) st.heap.length j = some (some a)) ↔ _
      rw [Heap.load_last]
      cases j with
      | zero => simp
      | succ j =>
        simp only [List.getElem?_cons_succ, List.getElem?_map, le_add_iff_nonneg_left, zero_le,
          true_and, Nat.succ_le_iff]
        constructor
        · rintro ⟨a, ha⟩
          by_contra hj
          rw [List.getElem?_eq_none (not_lt.mp hj)] at ha
          simp at ha
        · intro hj
          exact ⟨args[j], by simp [List.getElem?_eq_getElem hj]⟩
    · intro j _
      show Heap.load (st.heap ++ [none :: args.map some]) st.heap.length (j + 1) = _
      rw [Heap.load_last]
      simp [List.getElem?_map]
    · intro q hq
      show (st.heap ++ [none :: args.map some])[q]? = _
      exact List.getElem?_append_left hq
    · show (st.heap ++ [none :: args.map some])[src]? = _
      rw [List.getElem?_append_left hlt, hsrc]

/-- Witness of `setargs_frame` on two arguments, in a memory that holds the
caller's vector and another block. -/
theorem setargs_frame_witness :
    (([10, 20].length : Int) = INT_MAX ∧
      process.setargs (process.State.mk [[some 5], [some 10, some 20, none]] none 0 1)
        [10, 20].length 1 99 = none) ∨
    (∃ st1,
      process.setargs (process.State.mk [[some 5], [some 10, some 20, none]] none 0 1)
        [10, 20].length 1 99 = some st1 ∧
      (process.State.mk [[some 5], [some 10, some 20, none]] none 0 1).heap[
        (process.State.mk [[some 5], [some 10, some 20, none]] none 0 1).heap.length]? = none ∧
      st1.argv
        = some (process.State.mk [[some 5], [some 10, some 20, none]] none 0 1).heap.length ∧
      st1.heap = (process.State.mk [[some 5], [some 10, some 20, none]] none 0 1).heap
        ++ [none :: [10, 20].map some] ∧
      Heap.load st1.heap
        (process.State.mk [[some 5], [some 10, some 20, none]] none 0 1).heap.length 0
        = some none ∧
      (∀ j, (∃ a, Heap.load st1.heap
          (process.State.mk [[some 5], [some 10, some 20, none]] none 0 1).heap.length j
            = some (some a)) ↔ (1 ≤ j ∧ j ≤ [10, 20].length)) ∧
      (∀ j, j < [10, 20].length → Heap.load st1.heap
          (process.State.mk [[some 5], [some 10, some 20, none]] none 0 1).heap.length (j + 1)
            = [10, 20][j]?.map some) ∧
      (∀ q, q < (process.State.mk [[some 5], [some 10, some 20, none]] none 0 1).heap.length →
        st1.heap[q]?
          = (process.State.mk [[some 5], [some 10, some 20, none]] none 0 1).heap[q]?) ∧
      st1.heap[1]? = some ([10, 20].map some ++ [none])) :=
  setargs_frame (process.State.mk [[some 5], [some 10, some 20, none]] none 0 1)
    [10, 20] [none] 1 99 rfl (by decide)

/-! ## `js_constructor_Int32Array` -/

/-- C9: for every non-negative `size`, `js_constructor_Int32Array(size)` returns
a newly allocated block (an index no existing block has, the existing blocks
unchanged) of `size` slots, none of them initialised; every slot `i < size` can
be written with any 32-bit integer and read back, the other slots of the block
keeping their contents. -/
theorem Int32Array_spec (h : Heap Int) (size : Int) (hs : 0 ≤ size) :
    ∃ p h1, js_constructor_Int32Array h size = some (p, h1) ∧
      h[p]? = none ∧ (∀ q, q < h.length → h1[q]? = h[q]?) ∧
      h1[p]? = some (List.replicate size.toNat none) ∧
      (∀ i : Nat, (i : Int) < size → Heap.load h1 p i = some none) ∧
      ∀ (i : Nat) (v : Int), (i : Int) < size → isInt32 v →
        ∃ h2, Heap.store h1 p i (some v) = some h2 ∧ Heap.load h2 p i = some (some v) ∧
          ∀ j, j ≠ i → Heap.load h2 p j = Heap.load h1 p j := by
  refine ⟨h.length, h ++ [List.replicate size.toNat none], ?_, by simp, ?_, by simp, ?_, ?_⟩
  · unfold js_constructor_Int32Array Heap.new_array
    rw [if_neg (by omega)]
  · intro q hq
    exact List.getElem?_append_left hq
  · intro i hi
    rw [Heap.load_last]
    have : i < size.toNat := by omega
    simp [List.getElem?_replicate, this]
  · intro i v hi _
    have hlen : i < (List.replicate size.toNat (none : Option Int)).length := by
      rw [List.length_replicate]; omega
    refine ⟨_, Heap.store_last h _ i (some v) hlen, ?_, ?_⟩
    · rw [Heap.load_last]
      simp [List.getElem?_set, hi]
    · intro j hj
      rw [Heap.load_last, Heap.load_last]
      rw [List.getElem?_set_ne (Ne.symm hj)]

/-- Witness of `Int32Array_spec` at `size = 5`, in an empty memory. -/
theorem Int32Array_spec_witness :
    ∃ p h1, js_constructor_Int32Array [] 5 = some (p, h1) ∧
      ([] : Heap Int)[p]? = none ∧ (∀ q, q < ([] : Heap Int).length → h1[q]? = ([] : Heap Int)[q]?) ∧
      h1[p]? = some (List.replicate (5 : Int).toNat none) ∧
      (∀ i : Nat, (i : Int) < 5 → Heap.load h1 p i = some none) ∧
      ∀ (i : Nat) (v : Int), (i : Int) < 5 → isInt32 v →
        ∃ h2, Heap.store h1 p i (some v) = some h2 ∧ Heap.load h2 p i = some (some v) ∧
          ∀ j, j ≠ i → Heap.load h2 p j = Heap.load h1 p j :=
  Int32Array_spec [] 5 (by decide)
